import Mathlib

/-!
Verification of the iSearch ArXiv metadata extraction pipeline
(`iSearch_metadata_extraction.py`, class `ArXivMetadataExtractor`).

Strings are modelled as `List Char` (the source operates on ASCII URLs and
identifiers).  Pure helpers of the Python class are translated directly;
the network fetch and the BeautifulSoup parse are external collaborators and
enter the model as function parameters (`fetch`, `extract`), while the
per-field extraction of `_extract_version` is modelled over the text of the
submission-history block and the content of the `og:url` meta tag, which is
exactly what the Python code reads from the soup.  The driver
`process_documents` is modelled as a fold over the loaded document list that
records the buffered rows, the batches appended to the CSV ledger
(`save_results` calls), the `stats` counters and the number of `time.sleep`
calls, mirroring the loop body statement by statement.
-/

namespace ArXiv

/-! ## Python string primitives -/

/-- Whitespace characters recognised by Python's `str.strip()` (ASCII). -/
def isPySpace (c : Char) : Bool :=
  c = ' ' || c = '\t' || c = '\n' || c = '\r' || c = '\x0b' || c = '\x0c'

/-- Drop leading whitespace. -/
def dropW (s : List Char) : List Char := s.dropWhile isPySpace

/-- Drop trailing whitespace. -/
def rdw (s : List Char) : List Char := (s.reverse.dropWhile isPySpace).reverse

/-- Model of Python `s.strip()`. -/
def pyStrip (s : List Char) : List Char := rdw (dropW s)

/-- Model of Python `s.replace('.pdf', '')`: remove every non-overlapping,
leftmost-first occurrence of the four characters `.pdf`. -/
def pyReplacePdf : List Char → List Char
  | '.' :: 'p' :: 'd' :: 'f' :: rest => pyReplacePdf rest
  | c :: rest => c :: pyReplacePdf rest
  | [] => []

/-- `startsList p s` is true iff `p` is a prefix of `s`
(Python `s.startswith(p)`). -/
def startsList : List Char → List Char → Bool
  | [], _ => true
  | _ :: _, [] => false
  | a :: as, b :: bs => a = b && startsList as bs

/-- Model of Python `needle in hay` on strings. -/
def isSubstring (needle : List Char) : List Char → Bool
  | [] => startsList needle []
  | c :: t => startsList needle (c :: t) || isSubstring needle t

/-! ## `normalize_arxiv_url`

The two source regexes are
`arxiv\.org/(?:abs|pdf)/([\d\.]+[a-z]*(?:v\d+)?)` and
`arxiv\.org/([\d\.]+[a-z]*(?:v\d+)?)`, searched in that order with
`re.search` (leftmost match, case-sensitive).  Inside the capture group every
component is greedy and every component after a greedy one can match the
empty string, so Python's backtracking engine returns the first greedy pass:
a maximal `[\d\.]+` run, then a maximal `[a-z]*` run, then the optional
`v\d+` group at the remaining position. -/

def isDigitDot (c : Char) : Bool := c.isDigit || c = '.'

def isLowerAZ (c : Char) : Bool := 'a' ≤ c && c ≤ 'z'

/-- The `(?:v\d+)?` tail of the capture group, attempted at the position the
greedy `[a-z]*` run left off. -/
def vOpt : List Char → List Char
  | 'v' :: rest =>
    match rest.takeWhile Char.isDigit with
    | [] => []
    | d :: ds => 'v' :: d :: ds
  | _ => []

/-- Attempt of the capture group `([\d\.]+[a-z]*(?:v\d+)?)` at the head of
`s`; fails iff no digit or dot is present at the current position. -/
def matchIdAt (s : List Char) : Option (List Char) :=
  let run1 := s.takeWhile isDigitDot
  if run1 = [] then none
  else
    let s2 := s.drop run1.length
    let run2 := s2.takeWhile isLowerAZ
    let s3 := s2.drop run2.length
    some (run1 ++ run2 ++ vOpt s3)

def litAbs : List Char := "arxiv.org/abs/".toList
def litPdf : List Char := "arxiv.org/pdf/".toList
def litBare : List Char := "arxiv.org/".toList

/-- One attempt of the first pattern at the current position: the literal
`arxiv.org/` followed by the `abs`/`pdf` alternation, a slash, then the
capture group. -/
def tryPat1At (s : List Char) : Option (List Char) :=
  if startsList litAbs s then matchIdAt (s.drop litAbs.length)
  else if startsList litPdf s then matchIdAt (s.drop litPdf.length)
  else none

/-- One attempt of the second (bare-id) pattern at the current position. -/
def tryPat2At (s : List Char) : Option (List Char) :=
  if startsList litBare s then matchIdAt (s.drop litBare.length)
  else none

/-- `re.search` of the first pattern: the leftmost position at which an
attempt succeeds wins. -/
def searchPat1 : List Char → Option (List Char)
  | [] => none
  | c :: rest =>
    match tryPat1At (c :: rest) with
    | some r => some r
    | none => searchPat1 rest

/-- `re.search` of the second pattern. -/
def searchPat2 : List Char → Option (List Char)
  | [] => none
  | c :: rest =>
    match tryPat2At (c :: rest) with
    | some r => some r
    | none => searchPat2 rest

/-- The `for pattern in patterns` loop: the first pattern that matches
anywhere in the url wins. -/
def searchArxivId (u : List Char) : Option (List Char) :=
  match searchPat1 u with
  | some pid => some pid
  | none => searchPat2 u

def absPre : List Char := "https://arxiv.org/abs/".toList

/-- `ArXivMetadataExtractor.normalize_arxiv_url`.  The initial emptiness test
models Python's `if not url`. -/
def normalize_arxiv_url (url : List Char) : Option (List Char) :=
  if url = [] then none
  else
    match searchArxivId (pyStrip (pyReplacePdf url)) with
    | some pid => some (absPre ++ pid)
    | none => none

/-! ## `map_license` -/

/-- `LICENSE_MAPPINGS`, in declaration (= Python dict insertion) order. -/
def LICENSE_MAPPINGS : List (List Char × List Char) :=
  [("creativecommons.org/licenses/by/4.0".toList, "CC BY 4.0".toList),
   ("creativecommons.org/licenses/by-sa/4.0".toList, "CC BY-SA 4.0".toList),
   ("creativecommons.org/licenses/by-nc-sa/4.0".toList, "CC BY-NC-SA 4.0".toList),
   ("creativecommons.org/licenses/by-nc-nd/4.0".toList, "CC BY-NC-ND 4.0".toList),
   ("arxiv.org/licenses/nonexclusive-distrib/1.0".toList, "arXiv Non-exclusive".toList),
   ("arxiv.org/licenses/assumed-1991-2003".toList, "arXiv Assumed (1991-2003)".toList)]

/-- The `for url_pattern, license_name in ...` loop: first substring match in
declaration order wins. -/
def firstLicense : List (List Char × List Char) → List Char → Option (List Char)
  | [], _ => none
  | entry :: rest, u =>
    if isSubstring entry.1 u then some entry.2 else firstLicense rest u

/-- `ArXivMetadataExtractor.map_license`.  Python's `if not license_url` is
true both for `None` and for the empty string, hence the extra emptiness
test on the `some` branch. -/
def map_license (license_url : Option (List Char)) : List Char :=
  match license_url with
  | none => "Unknown".toList
  | some u =>
    if u = [] then "Unknown".toList
    else
      match firstLicense LICENSE_MAPPINGS (pyStrip (u.map Char.toLower)) with
      | some name => name
      | none => "Other/Unmapped".toList

/-! ## `extract_numeric_id` -/

/-- Digits of a Python `int` literal after the first digit: decimal digits
with single underscores permitted between digits. -/
def parseUDigits : List Char → Nat → Option Nat
  | [], acc => some acc
  | c :: rest, acc =>
    if c = '_' then
      match rest with
      | c2 :: rest2 =>
        if c2.isDigit then parseUDigits rest2 (acc * 10 + (c2.toNat - 48)) else none
      | [] => none
    else if c.isDigit then parseUDigits rest (acc * 10 + (c.toNat - 48)) else none

/-- The digit part of a Python `int` literal: at least one leading digit. -/
def parseIntBody : List Char → Option Nat
  | [] => none
  | c :: rest => if c.isDigit then parseUDigits rest (c.toNat - 48) else none

/-- Sign handling of Python `int(s)`, after the whitespace strip. -/
def pyIntAfterStrip : List Char → Option Int
  | [] => none
  | c :: rest =>
    if c = '+' then (parseIntBody rest).map (fun n => (n : Int))
    else if c = '-' then (parseIntBody rest).map (fun n => -(n : Int))
    else (parseIntBody (c :: rest)).map (fun n => (n : Int))

/-- Model of Python `int(s)` on an ASCII string: surrounding whitespace is
stripped, one optional sign is allowed, then decimal digits (with single
underscores allowed between digits).  `none` models the `ValueError`. -/
def pyIntStr (s : List Char) : Option Int := pyIntAfterStrip (pyStrip s)

/-- Accumulator-based scan behind `digitRuns`; `cur` holds the digits of the
run in progress, in reverse. -/
def digitRunsAux : List Char → List Char → List (List Char)
  | cur, [] => if cur = [] then [] else [cur.reverse]
  | cur, c :: rest =>
    if c.isDigit then digitRunsAux (c :: cur) rest
    else if cur = [] then digitRunsAux [] rest
    else cur.reverse :: digitRunsAux [] rest

/-- Model of `re.findall(r'\d+', s)`: the maximal digit runs, left to
right. -/
def digitRuns (s : List Char) : List (List Char) := digitRunsAux [] s

def pn0 : List Char := "PN0".toList

/-- `ArXivMetadataExtractor.extract_numeric_id`: the `PN0` prefix rule, then
plain `int` conversion, then the last digit run; `none` when everything
fails. -/
def extract_numeric_id (doc_id : List Char) : Option Int :=
  match (if startsList pn0 doc_id = true ∧ 3 < doc_id.length
         then pyIntStr (doc_id.drop 3) else none) with
  | some n => some n
  | none =>
    match pyIntStr doc_id with
    | some n => some n
    | none =>
      match (digitRuns doc_id).getLast? with
      | some run => pyIntStr run
      | none => none

/-! ## `_extract_version` -/

/-- Numeric value of a decimal digit string (Python `int` on the pure-digit
captures of the version regex). -/
def digitsToNat (ds : List Char) : Nat :=
  ds.foldl (fun n c => n * 10 + (c.toNat - 48)) 0

/-- Python `max(l, key=int)` starting from current best `b`: the first
element attaining the maximal value is kept (replacement only on strictly
greater). -/
def maxFrom : List Char → List (List Char) → List Char
  | b, [] => b
  | b, x :: rest =>
    if digitsToNat b < digitsToNat x then maxFrom x rest else maxFrom b rest

/-- Python `max(l, key=int)` (`none` on the empty list). -/
def maxByInt : List (List Char) → Option (List Char)
  | [] => none
  | x :: rest => some (maxFrom x rest)

/-- `re.findall(r'\[v(\d+)\]', s)` with a fuel argument for termination
(`s.length + 1` always suffices: every recursive call consumes at least one
character of the remaining text).  On a failed attempt the scan resumes at
the very next character, exactly like Python's leftmost non-overlapping
`findall`; the greedy `\d+` never needs backtracking because shrinking a
digit run can never expose a `]`. -/
def findVMarkersF : Nat → List Char → List (List Char)
  | 0, _ => []
  | _, [] => []
  | fuel + 1, '[' :: 'v' :: rest =>
    (match rest.takeWhile Char.isDigit with
     | [] => findVMarkersF fuel ('v' :: rest)
     | d :: ds =>
       match rest.drop (d :: ds).length with
       | ']' :: after => (d :: ds) :: findVMarkersF fuel after
       | _ => findVMarkersF fuel ('v' :: rest))
  | fuel + 1, _ :: rest => findVMarkersF fuel rest

/-- All `[vN]` capture groups in the submission-history text. -/
def findVMarkers (s : List Char) : List (List Char) := findVMarkersF (s.length + 1) s

/-- `re.search(r'v(\d+)', s)`: leftmost `v` followed by at least one digit;
the capture is the maximal digit run after it. -/
def searchVNum : List Char → Option (List Char)
  | [] => none
  | c :: rest =>
    if c = 'v' then
      match rest.takeWhile Char.isDigit with
      | [] => searchVNum rest
      | d :: ds => some (d :: ds)
    else searchVNum rest

/-- The meta-tag fallback of `_extract_version`, over the content of the
`og:url` meta tag (`none` when the tag is absent; the emptiness test models
the truthiness check on `meta_url.get("content")`). -/
def versionFallback : Option (List Char) → List Char
  | none => []
  | some m =>
    if m = [] then []
    else
      match searchVNum m with
      | some ds => 'v' :: ds
      | none => []

/-- `ArXivMetadataExtractor._extract_version`, over the text of the
submission-history block (`none` when that div is absent) and the content of
the `og:url` meta tag. -/
def extract_version (history : Option (List Char)) (metaContent : Option (List Char)) :
    List Char :=
  match history with
  | some h =>
    match maxByInt (findVMarkers h) with
    | some best => 'v' :: best
    | none => versionFallback metaContent
  | none => versionFallback metaContent

/-! ## Pipeline driver

A loaded document is the `(doc_id, abs_url, numeric_id)` triple produced by
`load_documents_to_process`.  The fetch (`fetch_abstract_page`, `none` on
any `RequestException`) and the full-page metadata extraction
(`extract_metadata`, always total) are external collaborators passed in as
functions; `save_abstract_page` only writes the archive file and touches no
driver state, so it has no footprint in the state. -/

structure Doc where
  doc_id : List Char
  raw_url : List Char
  numeric_id : Int
deriving DecidableEq

structure Metadata where
  license_url : Option (List Char)
  version : List Char
  title : List Char
  authors : List Char
  comments : List Char
  subjects : List Char
  journal_ref : List Char
  related_doi : List Char
deriving DecidableEq

/-- One CSV row, in the order of `CSV_COLUMNS`. -/
structure Row where
  doc_id : List Char
  abs_url : List Char
  license_url : Option (List Char)
  license_name : List Char
  version : List Char
  title : List Char
  authors : List Char
  comments : List Char
  subjects : List Char
  journal_ref : List Char
  related_doi : List Char
deriving DecidableEq

/-- `ArXivMetadataExtractor.create_result_row`. -/
def create_result_row (doc_id abs_url : List Char) (md : Metadata) : Row :=
  ⟨doc_id, abs_url, md.license_url, map_license md.license_url, md.version,
   md.title, md.authors, md.comments, md.subjects, md.journal_ref, md.related_doi⟩

/-- `ArXivMetadataExtractor._create_empty_result`:
`(doc_id, abs_url, None, "Unknown", "", ..., "")`. -/
def create_empty_result (doc_id abs_url : List Char) : Row :=
  ⟨doc_id, abs_url, none, "Unknown".toList, [], [], [], [], [], [], []⟩

/-- Driver state: the in-memory `results` buffer, the `stats` counters, the
batches passed to `save_results` (each call appends its whole batch to the
ledger CSV), and the number of `time.sleep(REQUEST_DELAY)` calls. -/
structure PState where
  buffer : List Row
  processed : Nat
  successful : Nat
  appends : List (List Row)
  delays : Nat
deriving DecidableEq

def pInit : PState := ⟨[], 0, 0, [], 0⟩

/-- The part of the loop body after a successful normalization to `abs_url`:
fetch (appending a full or an empty row), then `stats["processed"] += 1`,
then the checkpoint test `i % CHECKPOINT_INTERVAL == 0` (flush and clear the
buffer), then `time.sleep(REQUEST_DELAY)`. -/
def stepFetched (fetch : List Char → Option (List Char)) (extract : List Char → Metadata)
    (K : Nat) (i : Nat) (d : Doc) (abs_url : List Char) (st : PState) : PState :=
  let st1 :=
    match fetch abs_url with
    | some html =>
      { st with buffer := st.buffer ++ [create_result_row d.doc_id abs_url (extract html)],
                successful := st.successful + 1 }
    | none =>
      { st with buffer := st.buffer ++ [create_empty_result d.doc_id abs_url] }
  let st2 := { st1 with processed := st1.processed + 1 }
  let st3 :=
    if i % K = 0 then { st2 with appends := st2.appends ++ [st2.buffer], buffer := [] }
    else st2
  { st3 with delays := st3.delays + 1 }

/-- One iteration of the `for i, (doc_id, raw_url, numeric_id) in
enumerate(documents, 1)` loop, with checkpoint interval `K`.  On
normalization failure the body appends the empty row and `continue`s — so
the stats update, the checkpoint test and the sleep are all skipped. -/
def stepDoc (fetch : List Char → Option (List Char)) (extract : List Char → Metadata)
    (K : Nat) (i : Nat) (d : Doc) (st : PState) : PState :=
  match normalize_arxiv_url d.raw_url with
  | none =>
    { st with buffer := st.buffer ++ [create_empty_result d.doc_id d.raw_url] }
  | some abs_url => stepFetched fetch extract K i d abs_url st

/-- The whole loop, from index `i`. -/
def runDocs (fetch : List Char → Option (List Char)) (extract : List Char → Metadata)
    (K : Nat) : Nat → List Doc → PState → PState
  | _, [], st => st
  | i, d :: rest, st => runDocs fetch extract K (i + 1) rest (stepDoc fetch extract K i d st)

/-- `ArXivMetadataExtractor.process_documents` over an already-loaded
document list: early return on an empty list, then the loop, then the final
`save_results` of any non-empty remaining buffer. -/
def process_documents (fetch : List Char → Option (List Char))
    (extract : List Char → Metadata) (K : Nat) (docs : List Doc) : PState :=
  if docs = [] then pInit
  else
    let st := runDocs fetch extract K 1 docs pInit
    if st.buffer = [] then st
    else { st with appends := st.appends ++ [st.buffer], buffer := [] }

/-- Result of `ArXivMetadataExtractor.run`: either the final
`(processed, successful)` stats, or the uncaught `ZeroDivisionError` raised
by the success-rate computation
`(stats['successful']/stats['processed'])*100` when `processed == 0`. -/
inductive RunResult where
  | ok (processed successful : Nat)
  | zeroDivisionError
deriving DecidableEq

/-- `ArXivMetadataExtractor.run`. -/
def run (fetch : List Char → Option (List Char)) (extract : List Char → Metadata)
    (K : Nat) (docs : List Doc) : RunResult :=
  let st := process_documents fetch extract K docs
  if st.processed = 0 then RunResult.zeroDivisionError
  else RunResult.ok st.processed st.successful

/-- The single row the loop body emits for a document (into the buffer, and
hence eventually into the ledger). -/
def emittedRow (fetch : List Char → Option (List Char)) (extract : List Char → Metadata)
    (d : Doc) : Row :=
  match normalize_arxiv_url d.raw_url with
  | none => create_empty_result d.doc_id d.raw_url
  | some abs_url =>
    match fetch abs_url with
    | some html => create_result_row d.doc_id abs_url (extract html)
    | none => create_empty_result d.doc_id abs_url

def flattenRows : List (List Row) → List Row
  | [] => []
  | b :: bs => b ++ flattenRows bs

/-- All rows the driver is holding: everything already appended to the
ledger, in order, followed by the in-memory buffer. -/
def allRows (st : PState) : List Row := flattenRows st.appends ++ st.buffer

/-! ## Concrete fixtures for witnesses and counterexamples -/

/-- A fetch in which every request fails (`fetch_abstract_page` returns
`None`). -/
def fetchNone : List Char → Option (List Char) := fun _ => none

def mdEmpty : Metadata := ⟨none, [], [], [], [], [], [], []⟩

def extractEmpty : List Char → Metadata := fun _ => mdEmpty

/-- A loaded document whose reference URL normalizes successfully. -/
def docGood : Doc := ⟨"PN0060987".toList, "arxiv.org/abs/2301.12345".toList, 60987⟩

/-- A loaded document whose reference URL fails normalization. -/
def docBad : Doc := ⟨"PN0060988".toList, "notaurl".toList, 60988⟩

/-! ## Lemmas about `pyReplacePdf` -/

theorem replacePdf_nil : pyReplacePdf [] = [] := rfl

theorem replacePdf_pdf (rest : List Char) :
    pyReplacePdf ('.' :: 'p' :: 'd' :: 'f' :: rest) = pyReplacePdf rest := rfl

theorem replacePdf_cons_ne (c : Char) (l : List Char) (hc : c ≠ '.') :
    pyReplacePdf (c :: l) = c :: pyReplacePdf l := by
  rw [pyReplacePdf.eq_def]
  split
  · rename_i rest heq
    injection heq with h1 _
    exact absurd h1 hc
  · rename_i c2 rest2 _ heq
    injection heq with h1 h2
    subst h1; subst h2
    rfl
  · rename_i heq
    exact absurd heq (by simp)

theorem replacePdf_dot_cons (l : List Char)
    (h : ∀ t : List Char, l ≠ 'p' :: 'd' :: 'f' :: t) :
    pyReplacePdf ('.' :: l) = '.' :: pyReplacePdf l := by
  rw [pyReplacePdf.eq_def]
  split
  · rename_i rest heq
    injection heq with _ h2
    exact absurd h2 (h rest)
  · rename_i c2 rest2 _ heq
    injection heq with h1 h2
    subst h1; subst h2
    rfl
  · rename_i heq
    exact absurd heq (by simp)

theorem pySpace_ne (c : Char) (h : isPySpace c = true) :
    c ≠ '.' ∧ c ≠ 'p' ∧ c ≠ 'd' ∧ c ≠ 'f' := by
  simp only [isPySpace, Bool.or_eq_true, decide_eq_true_eq] at h
  obtain ((((h | h) | h) | h) | h) | h := h <;> subst h <;>
    exact ⟨by decide, by decide, by decide, by decide⟩

/-- Replacement is the identity on all-whitespace text. -/
theorem replacePdf_ws (ws : List Char) (h : ∀ c ∈ ws, isPySpace c = true) :
    pyReplacePdf ws = ws := by
  induction ws with
  | nil => rfl
  | cons c t ih =>
    rw [replacePdf_cons_ne c t (pySpace_ne c (h c (List.mem_cons_self c t))).1,
      ih (fun x hx => h x (List.mem_cons_of_mem c hx))]

/-- Replacement commutes with an all-whitespace prefix. -/
theorem replacePdf_ws_append (ws t : List Char) (h : ∀ c ∈ ws, isPySpace c = true) :
    pyReplacePdf (ws ++ t) = ws ++ pyReplacePdf t := by
  induction ws with
  | nil => simp
  | cons c w ih =>
    rw [List.cons_append,
      replacePdf_cons_ne c (w ++ t) (pySpace_ne c (h c (List.mem_cons_self c w))).1,
      ih (fun x hx => h x (List.mem_cons_of_mem c hx)), List.cons_append]

theorem notPdf_append_ws (rest ws : List Char)
    (hrest : ∀ t : List Char, rest ≠ 'p' :: 'd' :: 'f' :: t)
    (hws : ∀ c ∈ ws, isPySpace c = true) :
    ∀ t : List Char, rest ++ ws ≠ 'p' :: 'd' :: 'f' :: t := by
  intro t heq
  rcases rest with _ | ⟨a, _ | ⟨b, _ | ⟨c2, r⟩⟩⟩
  · simp only [List.nil_append] at heq
    have : isPySpace 'p' = true := hws 'p' (heq ▸ List.mem_cons_self 'p' _)
    exact absurd this (by decide)
  · simp only [List.cons_append, List.nil_append, List.cons.injEq] at heq
    have : isPySpace 'd' = true := hws 'd' (heq.2 ▸ List.mem_cons_self 'd' _)
    exact absurd this (by decide)
  · simp only [List.cons_append, List.nil_append, List.cons.injEq] at heq
    have : isPySpace 'f' = true := hws 'f' (heq.2.2 ▸ List.mem_cons_self 'f' _)
    exact absurd this (by decide)
  · simp only [List.cons_append, List.cons.injEq] at heq
    exact hrest r (by rw [heq.1, heq.2.1, heq.2.2.1])

/-- Replacement commutes with an all-whitespace suffix: whitespace characters
can neither start nor complete an occurrence of `.pdf`. -/
theorem replacePdf_append_ws (t ws : List Char) (h : ∀ c ∈ ws, isPySpace c = true) :
    pyReplacePdf (t ++ ws) = pyReplacePdf t ++ ws := by
  induction t using pyReplacePdf.induct with
  | case1 rest ih =>
    rw [List.cons_append, List.cons_append, List.cons_append, List.cons_append,
      replacePdf_pdf, replacePdf_pdf, ih]
  | case2 c rest h1 ih =>
    by_cases hc : c = '.'
    · subst hc
      have hrest : ∀ t : List Char, rest ≠ 'p' :: 'd' :: 'f' :: t := by
        intro t' ht'
        exact h1 t' rfl ht'
      rw [List.cons_append, replacePdf_dot_cons (rest ++ ws) (notPdf_append_ws rest ws hrest h),
        replacePdf_dot_cons rest hrest, ih, List.cons_append]
    · rw [List.cons_append, replacePdf_cons_ne c (rest ++ ws) hc,
        replacePdf_cons_ne c rest hc, ih, List.cons_append]
  | case3 => simp [replacePdf_ws ws h, replacePdf_nil]

/-! ## Lemmas about `pyStrip` -/

/-- Dropping leading whitespace removes an all-whitespace prefix. -/
theorem dropW_ws_append (ws y : List Char) (h : ∀ c ∈ ws, isPySpace c = true) :
    dropW (ws ++ y) = dropW y := by
  induction ws with
  | nil => rfl
  | cons c w ih =>
    have hc : isPySpace c = true := h c (List.mem_cons_self c w)
    simp only [dropW, List.cons_append, List.dropWhile_cons, hc, if_true]
    exact ih (fun x hx => h x (List.mem_cons_of_mem c hx))

theorem dropW_all_ws (ws : List Char) (h : ∀ c ∈ ws, isPySpace c = true) :
    dropW ws = [] := by
  have := dropW_ws_append ws [] h
  simpa using this

/-- Right-stripping removes an all-whitespace suffix. -/
theorem rdw_append_ws (y ws : List Char) (h : ∀ c ∈ ws, isPySpace c = true) :
    rdw (y ++ ws) = rdw y := by
  show (dropW ((y ++ ws).reverse)).reverse = (dropW y.reverse).reverse
  rw [List.reverse_append, dropW_ws_append ws.reverse y.reverse
    (fun c hc => h c (List.mem_reverse.mp hc))]

/-- After dropping leading whitespace, either the whole prefix list was
whitespace, or the appended suffix survives intact. -/
theorem dropW_append_cases (y ws : List Char) :
    dropW (y ++ ws) = dropW y ++ ws ∨ (dropW y = [] ∧ dropW (y ++ ws) = dropW ws) := by
  induction y with
  | nil => exact Or.inr ⟨rfl, rfl⟩
  | cons c t ih =>
    by_cases hc : isPySpace c = true
    · simpa only [dropW, List.cons_append, List.dropWhile_cons, hc, if_true] using ih
    · left
      simp only [dropW, List.cons_append, List.dropWhile_cons, hc]
      simp [hc]

theorem pyStrip_ws_left (ws y : List Char) (h : ∀ c ∈ ws, isPySpace c = true) :
    pyStrip (ws ++ y) = pyStrip y := by
  unfold pyStrip
  rw [dropW_ws_append ws y h]

theorem pyStrip_ws_right (y ws : List Char) (h : ∀ c ∈ ws, isPySpace c = true) :
    pyStrip (y ++ ws) = pyStrip y := by
  unfold pyStrip
  rcases dropW_append_cases y ws with hcase | ⟨h1, h2⟩
  · rw [hcase, rdw_append_ws (dropW y) ws h]
  · rw [h1, h2, dropW_all_ws ws h]

/-- Stripping ignores surrounding whitespace entirely. -/
theorem pyStrip_ws_both (ws s ws' : List Char) (h : ∀ c ∈ ws, isPySpace c = true)
    (h' : ∀ c ∈ ws', isPySpace c = true) :
    pyStrip (ws ++ s ++ ws') = pyStrip s := by
  rw [List.append_assoc, pyStrip_ws_left ws (s ++ ws') h, pyStrip_ws_right s ws' h']

/-! ## Lemmas about `startsList` and `isSubstring` -/

theorem startsList_iff_append (p : List Char) :
    ∀ s : List Char, startsList p s = true ↔ ∃ r, s = p ++ r := by
  induction p with
  | nil =>
    intro s
    simp [startsList]
  | cons a as ih =>
    intro s
    cases s with
    | nil =>
      simp [startsList]
    | cons b bs =>
      simp only [startsList, Bool.and_eq_true, decide_eq_true_eq, ih bs, List.cons_append,
        List.cons.injEq]
      constructor
      · rintro ⟨hab, r, hr⟩
        exact ⟨r, hab.symm, hr⟩
      · rintro ⟨r, hab, hr⟩
        exact ⟨hab.symm, r, hr⟩

theorem isSubstring_iff (pat : List Char) :
    ∀ u : List Char, isSubstring pat u = true ↔ ∃ pre post, u = pre ++ pat ++ post := by
  intro u
  induction u with
  | nil =>
    simp only [isSubstring, startsList_iff_append]
    constructor
    · rintro ⟨r, hr⟩
      exact ⟨[], r, by simpa using hr⟩
    · rintro ⟨pre, post, hp⟩
      rcases List.append_eq_nil.mp hp.symm with ⟨h1, h2⟩
      rcases List.append_eq_nil.mp h1 with ⟨_, h3⟩
      exact ⟨[], by simp [h3]⟩
  | cons c t ih =>
    simp only [isSubstring, Bool.or_eq_true, startsList_iff_append, ih]
    constructor
    · rintro (⟨r, hr⟩ | ⟨pre, post, hp⟩)
      · exact ⟨[], r, by simpa using hr⟩
      · exact ⟨c :: pre, post, by simp [hp]⟩
    · rintro ⟨pre, post, hp⟩
      cases pre with
      | nil =>
        left
        exact ⟨post, by simpa using hp⟩
      | cons x xs =>
        right
        simp only [List.cons_append, List.cons.injEq] at hp
        exact ⟨xs, post, hp.2⟩

/-- Substring occurrences survive `reverse` (reversed). -/
theorem isSubstring_reverse (pat u : List Char) (h : isSubstring pat u = true) :
    isSubstring pat.reverse u.reverse = true := by
  rcases (isSubstring_iff pat u).mp h with ⟨pre, post, hp⟩
  refine (isSubstring_iff pat.reverse u.reverse).mpr ⟨post.reverse, pre.reverse, ?_⟩
  subst hp
  simp [List.reverse_append]

/-- A whitespace-free pattern survives dropping leading whitespace. -/
theorem isSubstring_dropW (pat : List Char) (hpat : ∀ c ∈ pat, isPySpace c = false)
    (hne : pat ≠ []) :
    ∀ u : List Char, isSubstring pat u = true → isSubstring pat (dropW u) = true := by
  intro u
  induction u with
  | nil => exact fun h => h
  | cons c t ih =>
    intro h
    by_cases hc : isPySpace c = true
    · have hnotpre : startsList pat (c :: t) = false := by
        cases pat with
        | nil => exact absurd rfl hne
        | cons p ps =>
          by_contra hcontra
          rw [Bool.not_eq_false] at hcontra
          simp only [startsList, Bool.and_eq_true, decide_eq_true_eq] at hcontra
          have : isPySpace p = false := hpat p (List.mem_cons_self p ps)
          rw [hcontra.1] at this
          rw [this] at hc
          exact Bool.false_ne_true hc
      simp only [isSubstring, hnotpre, Bool.false_or] at h
      simp only [dropW, List.dropWhile_cons, hc, if_true]
      exact ih h
    · simp only [dropW, List.dropWhile_cons, hc, if_false]
      simpa [dropW] using h

/-- A whitespace-free pattern survives `pyStrip`. -/
theorem isSubstring_pyStrip (pat : List Char) (hpat : ∀ c ∈ pat, isPySpace c = false)
    (hne : pat ≠ []) (u : List Char) (h : isSubstring pat u = true) :
    isSubstring pat (pyStrip u) = true := by
  have h1 : isSubstring pat (dropW u) = true := isSubstring_dropW pat hpat hne u h
  have h2 : isSubstring pat.reverse (dropW u).reverse = true :=
    isSubstring_reverse pat (dropW u) h1
  have hpat' : ∀ c ∈ pat.reverse, isPySpace c = false :=
    fun c hc => hpat c (List.mem_reverse.mp hc)
  have hne' : pat.reverse ≠ [] := by
    intro hr
    exact hne (by simpa using congrArg List.reverse hr)
  have h3 : isSubstring pat.reverse (dropW (dropW u).reverse) = true :=
    isSubstring_dropW pat.reverse hpat' hne' (dropW u).reverse h2
  have h4 : isSubstring pat.reverse.reverse (dropW (dropW u).reverse).reverse = true :=
    isSubstring_reverse pat.reverse (dropW (dropW u).reverse) h3
  simpa [pyStrip, rdw, dropW] using h4

/-- Substring occurrences of a `toLower`-fixed pattern survive
character-wise lower-casing. -/
theorem isSubstring_map_toLower (pat u : List Char) (hfix : pat.map Char.toLower = pat)
    (h : isSubstring pat u = true) :
    isSubstring pat (u.map Char.toLower) = true := by
  rcases (isSubstring_iff pat u).mp h with ⟨pre, post, hp⟩
  refine (isSubstring_iff pat (u.map Char.toLower)).mpr
    ⟨pre.map Char.toLower, post.map Char.toLower, ?_⟩
  subst hp
  simp [hfix]

/-! ## Lemmas about the pipeline driver -/

theorem flattenRows_concat (xs : List (List Row)) (b : List Row) :
    flattenRows (xs ++ [b]) = flattenRows xs ++ b := by
  induction xs with
  | nil => simp [flattenRows]
  | cons x t ih => simp [flattenRows, ih]

theorem stepDoc_none (fetch : List Char → Option (List Char))
    (extract : List Char → Metadata) (K i : Nat) (d : Doc) (st : PState)
    (h : normalize_arxiv_url d.raw_url = none) :
    stepDoc fetch extract K i d st =
      { st with buffer := st.buffer ++ [create_empty_result d.doc_id d.raw_url] } := by
  unfold stepDoc
  rw [h]

theorem stepDoc_some (fetch : List Char → Option (List Char))
    (extract : List Char → Metadata) (K i : Nat) (d : Doc) (st : PState) (u : List Char)
    (h : normalize_arxiv_url d.raw_url = some u) :
    stepDoc fetch extract K i d st = stepFetched fetch extract K i d u st := by
  unfold stepDoc
  rw [h]

/-- Every loop iteration adds exactly the emitted row to the rows held by the
driver, whichever branch it takes. -/
theorem stepDoc_allRows (fetch : List Char → Option (List Char))
    (extract : List Char → Metadata) (K i : Nat) (d : Doc) (st : PState) :
    allRows (stepDoc fetch extract K i d st) = allRows st ++ [emittedRow fetch extract d] := by
  cases hn : normalize_arxiv_url d.raw_url with
  | none =>
    rw [stepDoc_none fetch extract K i d st hn]
    unfold emittedRow
    rw [hn]
    simp [allRows, List.append_assoc]
  | some u =>
    rw [stepDoc_some fetch extract K i d st u hn]
    unfold emittedRow stepFetched
    rw [hn]
    cases hf : fetch u with
    | some html =>
      by_cases hi : i % K = 0 <;>
        simp [allRows, hi, hf, flattenRows_concat, List.append_assoc]
    | none =>
      by_cases hi : i % K = 0 <;>
        simp [allRows, hi, hf, flattenRows_concat, List.append_assoc]

theorem runDocs_allRows (fetch : List Char → Option (List Char))
    (extract : List Char → Metadata) (K : Nat) :
    ∀ (docs : List Doc) (i : Nat) (st : PState),
      allRows (runDocs fetch extract K i docs st) =
        allRows st ++ docs.map (emittedRow fetch extract) := by
  intro docs
  induction docs with
  | nil =>
    intro i st
    simp [runDocs]
  | cons d rest ih =>
    intro i st
    show allRows (runDocs fetch extract K (i + 1) rest (stepDoc fetch extract K i d st)) = _
    rw [ih, stepDoc_allRows]
    simp

/-- The loop emits the rows in input order, and the final `save_results`
leaves everything in the ledger: one row per loaded document. -/
theorem process_allRows (fetch : List Char → Option (List Char))
    (extract : List Char → Metadata) (K : Nat) (docs : List Doc) :
    flattenRows (process_documents fetch extract K docs).appends =
      docs.map (emittedRow fetch extract) ∧
    (process_documents fetch extract K docs).buffer = [] := by
  unfold process_documents
  by_cases hd : docs = []
  · subst hd
    simp [pInit, flattenRows]
  · rw [if_neg hd]
    have h := runDocs_allRows fetch extract K docs 1 pInit
    have hinit : allRows pInit = [] := rfl
    rw [hinit, List.nil_append] at h
    by_cases hb : (runDocs fetch extract K 1 docs pInit).buffer = []
    · rw [if_pos hb]
      refine ⟨?_, hb⟩
      have h' := h
      rw [allRows, hb, List.append_nil] at h'
      exact h'
    · rw [if_neg hb]
      refine ⟨?_, rfl⟩
      show flattenRows ((runDocs fetch extract K 1 docs pInit).appends ++
        [(runDocs fetch extract K 1 docs pInit).buffer]) = _
      rw [flattenRows_concat]
      exact h

theorem stepDoc_delays (fetch : List Char → Option (List Char))
    (extract : List Char → Metadata) (K i : Nat) (d : Doc) (st : PState) :
    (stepDoc fetch extract K i d st).delays =
      st.delays + (if (normalize_arxiv_url d.raw_url).isSome then 1 else 0) := by
  cases hn : normalize_arxiv_url d.raw_url with
  | none =>
    rw [stepDoc_none fetch extract K i d st hn]
    simp
  | some u =>
    rw [stepDoc_some fetch extract K i d st u hn]
    unfold stepFetched
    cases hf : fetch u with
    | some html => by_cases hi : i % K = 0 <;> simp [hi]
    | none => by_cases hi : i % K = 0 <;> simp [hi]

theorem runDocs_delays (fetch : List Char → Option (List Char))
    (extract : List Char → Metadata) (K : Nat) :
    ∀ (docs : List Doc) (i : Nat) (st : PState),
      (runDocs fetch extract K i docs st).delays =
        st.delays +
          (docs.filter (fun d => (normalize_arxiv_url d.raw_url).isSome)).length := by
  intro docs
  induction docs with
  | nil =>
    intro i st
    simp [runDocs]
  | cons d rest ih =>
    intro i st
    show (runDocs fetch extract K (i + 1) rest (stepDoc fetch extract K i d st)).delays = _
    rw [ih, stepDoc_delays, List.filter_cons]
    by_cases hn : (normalize_arxiv_url d.raw_url).isSome
    · simp [hn]
      omega
    · simp [hn]

theorem stepDoc_some_checkpoint (fetch : List Char → Option (List Char))
    (extract : List Char → Metadata) (K i : Nat) (d : Doc) (st : PState) (u : List Char)
    (h : normalize_arxiv_url d.raw_url = some u) (hi : i % K = 0) :
    (stepDoc fetch extract K i d st).appends.length = st.appends.length + 1 ∧
    (stepDoc fetch extract K i d st).buffer = [] := by
  rw [stepDoc_some fetch extract K i d st u h]
  unfold stepFetched
  cases fetch u <;> simp [hi]

theorem stepDoc_some_nocheck (fetch : List Char → Option (List Char))
    (extract : List Char → Metadata) (K i : Nat) (d : Doc) (st : PState) (u : List Char)
    (h : normalize_arxiv_url d.raw_url = some u) (hi : ¬ i % K = 0) :
    (stepDoc fetch extract K i d st).appends = st.appends ∧
    (stepDoc fetch extract K i d st).buffer.length = st.buffer.length + 1 := by
  rw [stepDoc_some fetch extract K i d st u h]
  unfold stepFetched
  cases fetch u <;> simp [hi]

/-! ## Arithmetic for the checkpoint count -/

theorem succ_mod_div (m K : Nat) (hK : 0 < K) :
    (m + 1) % K = (m % K + 1) % K ∧ (m + 1) / K = m / K + (m % K + 1) / K := by
  constructor
  · conv_lhs => rw [← Nat.div_add_mod m K]
    rw [Nat.add_assoc, Nat.mul_add_mod]
  · conv_lhs => rw [← Nat.div_add_mod m K]
    rw [Nat.add_assoc, Nat.mul_add_div hK]

theorem mod_succ_cases (m K : Nat) (hK : 0 < K) :
    ((m + 1) % K = 0 ∧ (m + 1) / K = m / K + 1) ∨
    ((m + 1) % K = m % K + 1 ∧ (m + 1) / K = m / K) := by
  have hlt : m % K < K := Nat.mod_lt m hK
  obtain ⟨h1, h2⟩ := succ_mod_div m K hK
  rcases Nat.lt_or_ge (m % K + 1) K with h | h
  · right
    rw [Nat.mod_eq_of_lt h] at h1
    rw [Nat.div_eq_of_lt h] at h2
    exact ⟨h1, by omega⟩
  · left
    have heq : m % K + 1 = K := by omega
    rw [heq, Nat.mod_self] at h1
    rw [heq, Nat.div_self hK] at h2
    exact ⟨h1, by omega⟩

theorem ceil_div_eq (N K : Nat) (hK : 0 < K) :
    (N + K - 1) / K = N / K + (if N % K = 0 then 0 else 1) := by
  have hd := Nat.div_add_mod N K
  have hlt : N % K < K := Nat.mod_lt N hK
  by_cases h : N % K = 0
  · have he : N + K - 1 = K * (N / K) + (K - 1) := by omega
    rw [he, Nat.mul_add_div hK, Nat.div_eq_of_lt (show K - 1 < K by omega), if_pos h]
  · have he : N + K - 1 = K * (N / K + 1) + (N % K - 1) := by
      rw [Nat.mul_succ]
      omega
    rw [he, Nat.mul_add_div hK, Nat.div_eq_of_lt (show N % K - 1 < K by omega), if_neg h]

/-- The checkpoint invariant: provided every document sitting at a
multiple-of-`K` position normalizes, after `m` processed documents the
ledger has received `m / K` batches and the buffer holds `m % K` rows. -/
theorem runDocs_checkpoint_inv (fetch : List Char → Option (List Char))
    (extract : List Char → Metadata) (K : Nat) (hK : 0 < K) :
    ∀ (docs : List Doc) (m : Nat) (st : PState),
      st.appends.length = m / K → st.buffer.length = m % K →
      (∀ p ∈ List.enumFrom (m + 1) docs, p.1 % K = 0 →
        (normalize_arxiv_url p.2.raw_url).isSome = true) →
      (runDocs fetch extract K (m + 1) docs st).appends.length = (m + docs.length) / K ∧
      (runDocs fetch extract K (m + 1) docs st).buffer.length = (m + docs.length) % K := by
  intro docs
  induction docs with
  | nil =>
    intro m st h1 h2 _
    simpa [runDocs] using ⟨h1, h2⟩
  | cons d rest ih =>
    intro m st h1 h2 hb
    have hcons : List.enumFrom (m + 1) (d :: rest) =
        (m + 1, d) :: List.enumFrom (m + 2) rest := rfl
    have hb_head : (m + 1) % K = 0 → (normalize_arxiv_url d.raw_url).isSome = true := by
      intro hz
      exact hb (m + 1, d) (hcons ▸ List.mem_cons_self _ _) hz
    have hb_tail : ∀ p ∈ List.enumFrom (m + 2) rest, p.1 % K = 0 →
        (normalize_arxiv_url p.2.raw_url).isSome = true := by
      intro p hp
      exact hb p (hcons ▸ List.mem_cons_of_mem _ hp)
    show (runDocs fetch extract K (m + 2) rest (stepDoc fetch extract K (m + 1) d st)).appends.length
        = _ ∧ _
    have hlen : m + (d :: rest).length = (m + 1) + rest.length := by simp; omega
    rcases mod_succ_cases m K hK with ⟨hz, hdiv⟩ | ⟨hmod, hdiv⟩
    · have hnorm := hb_head hz
      obtain ⟨u, hu⟩ := Option.isSome_iff_exists.mp hnorm
      obtain ⟨ha, hbuf⟩ := stepDoc_some_checkpoint fetch extract K (m + 1) d st u hu hz
      have := ih (m + 1) (stepDoc fetch extract K (m + 1) d st)
        (by rw [ha, h1, hdiv]) (by rw [hbuf, hz]; rfl) hb_tail
      rw [hlen]
      exact this
    · cases hn : normalize_arxiv_url d.raw_url with
      | none =>
        have hshape := stepDoc_none fetch extract K (m + 1) d st hn
        have := ih (m + 1) (stepDoc fetch extract K (m + 1) d st)
          (by rw [hshape]; simpa [hdiv] using h1)
          (by rw [hshape]; simp [hmod, h2])
          hb_tail
        rw [hlen]
        exact this
      | some u =>
        have hiz : ¬ (m + 1) % K = 0 := by omega
        obtain ⟨ha, hbuf⟩ := stepDoc_some_nocheck fetch extract K (m + 1) d st u hn hiz
        have := ih (m + 1) (stepDoc fetch extract K (m + 1) d st)
          (by rw [ha, h1, hdiv]) (by rw [hbuf, h2, hmod]) hb_tail
        rw [hlen]
        exact this

/-! ## Lemmas about `maxFrom` (Python `max(..., key=int)`) -/

theorem maxFrom_mem (l : List (List Char)) :
    ∀ b : List Char, maxFrom b l ∈ b :: l := by
  induction l with
  | nil =>
    intro b
    simp [maxFrom]
  | cons x t ih =>
    intro b
    rw [maxFrom]
    by_cases h : digitsToNat b < digitsToNat x
    · rw [if_pos h]
      rcases List.mem_cons.mp (ih x) with h1 | h1
      · rw [h1]
        exact List.mem_cons_of_mem _ (List.mem_cons_self _ _)
      · exact List.mem_cons_of_mem _ (List.mem_cons_of_mem _ h1)
    · rw [if_neg h]
      rcases List.mem_cons.mp (ih b) with h1 | h1
      · rw [h1]
        exact List.mem_cons_self _ _
      · exact List.mem_cons_of_mem _ (List.mem_cons_of_mem _ h1)

theorem maxFrom_ge (l : List (List Char)) :
    ∀ b : List Char, ∀ x ∈ b :: l, digitsToNat x ≤ digitsToNat (maxFrom b l) := by
  induction l with
  | nil =>
    intro b x hx
    rcases List.mem_cons.mp hx with h1 | h1
    · rw [h1, maxFrom]
    · exact absurd h1 (List.not_mem_nil x)
  | cons y t ih =>
    intro b x hx
    rw [maxFrom]
    by_cases h : digitsToNat b < digitsToNat y
    · rw [if_pos h]
      rcases List.mem_cons.mp hx with h1 | h1
      · have hb : digitsToNat y ≤ digitsToNat (maxFrom y t) :=
          ih y y (List.mem_cons_self _ _)
        rw [h1]
        omega
      · exact ih y x h1
    · rw [if_neg h]
      rcases List.mem_cons.mp hx with h1 | h1
      · exact ih b x (h1 ▸ List.mem_cons_self _ _)
      · rcases List.mem_cons.mp h1 with h2 | h2
        · have hb : digitsToNat b ≤ digitsToNat (maxFrom b t) :=
            ih b b (List.mem_cons_self _ _)
          rw [h2]
          omega
        · exact ih b x (List.mem_cons_of_mem _ h2)

/-! ## Lemmas about `firstLicense` -/

theorem firstLicense_mem (u : List Char) :
    ∀ (tbl : List (List Char × List Char)) (n : List Char),
      firstLicense tbl u = some n → ∃ p, (p, n) ∈ tbl := by
  intro tbl
  induction tbl with
  | nil =>
    intro n h
    exact absurd h (by simp [firstLicense])
  | cons e t ih =>
    intro n h
    rw [firstLicense] at h
    by_cases he : isSubstring e.1 u = true
    · rw [if_pos he] at h
      injection h with h
      refine ⟨e.1, ?_⟩
      rw [← h, Prod.mk.eta]
      exact List.mem_cons_self _ _
    · rw [if_neg he] at h
      obtain ⟨p, hp⟩ := ih n h
      exact ⟨p, List.mem_cons_of_mem _ hp⟩

/-! ## Membership through `pyStrip`, and digit-free inputs -/

theorem mem_dropW (c : Char) (s : List Char) (h : c ∈ dropW s) : c ∈ s :=
  (List.dropWhile_sublist isPySpace).subset h

theorem mem_pyStrip (c : Char) (s : List Char) (h : c ∈ pyStrip s) : c ∈ s := by
  unfold pyStrip rdw at h
  have h1 : c ∈ (dropW s).reverse.dropWhile isPySpace := List.mem_reverse.mp h
  have h2 : c ∈ (dropW s).reverse := (List.dropWhile_sublist isPySpace).subset h1
  exact mem_dropW c s (List.mem_reverse.mp h2)

theorem parseIntBody_no_digit (l : List Char) (h : ∀ c ∈ l, c.isDigit = false) :
    parseIntBody l = none := by
  cases l with
  | nil => rfl
  | cons c r => simp [parseIntBody, h c (List.mem_cons_self c r)]

theorem pyIntStr_no_digit (s : List Char) (h : ∀ c ∈ s, c.isDigit = false) :
    pyIntStr s = none := by
  unfold pyIntStr
  cases hst : pyStrip s with
  | nil => rfl
  | cons c rest =>
    have hrest : ∀ x ∈ rest, x.isDigit = false :=
      fun x hx => h x (mem_pyStrip x s (hst ▸ List.mem_cons_of_mem c hx))
    have hbody : parseIntBody rest = none := parseIntBody_no_digit rest hrest
    have hall : parseIntBody (c :: rest) = none :=
      parseIntBody_no_digit (c :: rest) (fun x hx => h x (mem_pyStrip x s (hst ▸ hx)))
    rw [pyIntAfterStrip]
    by_cases hplus : c = '+'
    · rw [if_pos hplus, hbody]
      rfl
    · rw [if_neg hplus]
      by_cases hminus : c = '-'
      · rw [if_pos hminus, hbody]
        rfl
      · rw [if_neg hminus, hall]
        rfl

theorem digitRuns_no_digit (s : List Char) (h : ∀ c ∈ s, c.isDigit = false) :
    digitRuns s = [] := by
  unfold digitRuns
  induction s with
  | nil => rfl
  | cons c t ih =>
    rw [digitRunsAux, h c (List.mem_cons_self c t)]
    simp only [Bool.false_eq_true, if_false, if_pos rfl]
    exact ih (fun x hx => h x (List.mem_cons_of_mem c hx))

/-! ## Reduction lemmas for `Option`-matching definitions -/

theorem extract_version_some_eq (h : List Char) (m : Option (List Char)) :
    extract_version (some h) m =
      match maxByInt (findVMarkers h) with
      | some best => 'v' :: best
      | none => versionFallback m := rfl

theorem map_license_some (u : List Char) :
    map_license (some u) =
      if u = [] then "Unknown".toList
      else
        match firstLicense LICENSE_MAPPINGS (pyStrip (u.map Char.toLower)) with
        | some name => name
        | none => "Other/Unmapped".toList := rfl

theorem emittedRow_some (fetch : List Char → Option (List Char))
    (extract : List Char → Metadata) (d : Doc) (u : List Char)
    (h : normalize_arxiv_url d.raw_url = some u) :
    emittedRow fetch extract d =
      match fetch u with
      | some html => create_result_row d.doc_id u (extract html)
      | none => create_empty_result d.doc_id u := by
  unfold emittedRow
  rw [h]

theorem extract_numeric_id_no_digit (s : List Char) (h : ∀ c ∈ s, c.isDigit = false) :
    extract_numeric_id s = none := by
  unfold extract_numeric_id
  have h3 : ∀ c ∈ s.drop 3, c.isDigit = false := fun c hc => h c (List.mem_of_mem_drop hc)
  have hstep1 : (if startsList pn0 s = true ∧ 3 < s.length
      then pyIntStr (s.drop 3) else none) = none := by
    split
    · exact pyIntStr_no_digit _ h3
    · rfl
  rw [hstep1, pyIntStr_no_digit s h, digitRuns_no_digit s h]
  rfl

/-! ## Claims -/

/-- C6 (amended): `normalize_arxiv_url` is insensitive to surrounding
whitespace — inputs that differ only in leading/trailing whitespace produce
the same result.  (The case-insensitivity half of the original claim is
false: the regexes are compiled without `re.IGNORECASE` and the source never
lower-cases the URL; see the counterexample.) -/
theorem C6_whitespace_insensitive (s ws ws' : List Char)
    (h : ∀ c ∈ ws, isPySpace c = true) (h' : ∀ c ∈ ws', isPySpace c = true) :
    normalize_arxiv_url (ws ++ s ++ ws') = normalize_arxiv_url s := by
  cases s with
  | nil =>
    show normalize_arxiv_url (ws ++ [] ++ ws') = none
    unfold normalize_arxiv_url
    by_cases hz : ws ++ ([] : List Char) ++ ws' = []
    · rw [if_pos hz]
    · rw [if_neg hz]
      have hws : ∀ c ∈ ws ++ ([] : List Char) ++ ws', isPySpace c = true := by
        intro c hc
        simp only [List.append_nil, List.mem_append] at hc
        rcases hc with hc | hc
        · exact h c hc
        · exact h' c hc
      rw [replacePdf_ws _ hws]
      have hstrip : pyStrip (ws ++ [] ++ ws') = [] := by
        unfold pyStrip
        rw [dropW_all_ws _ hws]
        rfl
      rw [hstrip]
      rfl
  | cons c t =>
    have hne : (c :: t : List Char) ≠ [] := by simp
    have hne2 : ws ++ (c :: t) ++ ws' ≠ [] := by simp
    unfold normalize_arxiv_url
    rw [if_neg hne2, if_neg hne, List.append_assoc,
      replacePdf_ws_append ws ((c :: t) ++ ws') h,
      replacePdf_append_ws (c :: t) ws' h', ← List.append_assoc,
      pyStrip_ws_both ws (pyReplacePdf (c :: t)) ws' h h']

/-- C6 witness: surrounding whitespace around a normalizable URL changes
nothing. -/
theorem C6_witness :
    normalize_arxiv_url (" ".toList ++ "arxiv.org/abs/2301.12345".toList ++ "\t".toList) =
      normalize_arxiv_url "arxiv.org/abs/2301.12345".toList :=
  C6_whitespace_insensitive "arxiv.org/abs/2301.12345".toList " ".toList "\t".toList
    (by decide) (by decide)

/-- C6 counterexample: `normalize_arxiv_url` is case-sensitive.  The
upper-casing of `arxiv.org/abs/2301.12345` (differing only in letter case)
normalizes to `none` while the lower-case original succeeds — refuting the
claimed case-insensitivity. -/
theorem C6_counterexample :
    "ARXIV.ORG/ABS/2301.12345".toList = "arxiv.org/abs/2301.12345".toList.map Char.toUpper ∧
    normalize_arxiv_url "ARXIV.ORG/ABS/2301.12345".toList = none ∧
    normalize_arxiv_url "arxiv.org/abs/2301.12345".toList =
      some "https://arxiv.org/abs/2301.12345".toList :=
  ⟨by decide, by decide, by decide⟩

/-- C1: once processing completes, the ledger holds exactly one row per
loaded document — the rows appended across all `save_results` calls are
precisely the per-document emitted rows in input order, their count equals
the input count, and the in-memory buffer is empty. -/
theorem C1_one_ledger_row_per_document (fetch : List Char → Option (List Char))
    (extract : List Char → Metadata) (K : Nat) (docs : List Doc) (hK : 0 < K) :
    flattenRows (process_documents fetch extract K docs).appends =
      docs.map (emittedRow fetch extract) ∧
    (flattenRows (process_documents fetch extract K docs).appends).length = docs.length ∧
    (process_documents fetch extract K docs).buffer = [] := by
  obtain ⟨h1, h2⟩ := process_allRows fetch extract K docs
  exact ⟨h1, by rw [h1, List.length_map], h2⟩

/-- C1 witness: a two-document run (one normalization failure, one fetch
failure) appends exactly two rows. -/
theorem C1_witness :
    flattenRows (process_documents fetchNone extractEmpty 50 [docBad, docGood]).appends =
      [docBad, docGood].map (emittedRow fetchNone extractEmpty) ∧
    (flattenRows (process_documents fetchNone extractEmpty 50 [docBad, docGood]).appends).length =
      ([docBad, docGood] : List Doc).length ∧
    (process_documents fetchNone extractEmpty 50 [docBad, docGood]).buffer = [] :=
  C1_one_ledger_row_per_document fetchNone extractEmpty 50 [docBad, docGood] (by decide)

/-- C2 counterexample: with `N = 2` documents and interval `K = 1`, when the
first document's URL fails normalization the `continue` skips the checkpoint
test at `i = 1`, so only one `save_results` call happens — not
`ceil(2/1) = 2` as claimed. -/
theorem C2_counterexample :
    (process_documents fetchNone extractEmpty 1 [docBad, docGood]).appends.length = 1 ∧
    (([docBad, docGood] : List Doc).length + 1 - 1) / 1 = 2 :=
  ⟨by decide, by decide⟩

/-- C2 (amended): the run performs exactly `ceil(N/K)` ledger appends
provided every document sitting at a multiple-of-`K` position normalizes
successfully (in particular whenever no URL fails normalization); a
normalization failure at a checkpoint position skips that flush, lowering
the count. -/
theorem C2_checkpoint_flush_count (fetch : List Char → Option (List Char))
    (extract : List Char → Metadata) (K : Nat) (docs : List Doc)
    (hK : 0 < K) (hN : docs ≠ [])
    (hb : ∀ p ∈ List.enumFrom 1 docs, p.1 % K = 0 →
      (normalize_arxiv_url p.2.raw_url).isSome = true) :
    (process_documents fetch extract K docs).appends.length = (docs.length + K - 1) / K := by
  unfold process_documents
  rw [if_neg hN]
  obtain ⟨ha, hbuf⟩ := runDocs_checkpoint_inv fetch extract K hK docs 0 pInit
    (by simp [pInit]) (by simp [pInit]) (by simpa using hb)
  simp only [Nat.zero_add] at ha hbuf
  have hceil := ceil_div_eq docs.length K hK
  by_cases hb0 : (runDocs fetch extract K 1 docs pInit).buffer = []
  · rw [if_pos hb0]
    have hz : docs.length % K = 0 := by
      rw [← hbuf, hb0]
      rfl
    rw [ha, hceil, if_pos hz]
    omega
  · rw [if_neg hb0]
    have hmod : ¬ docs.length % K = 0 := by
      intro hz
      apply hb0
      apply List.length_eq_zero.mp
      rw [hbuf, hz]
    show ((runDocs fetch extract K 1 docs pInit).appends ++ _).length = _
    rw [List.length_append, ha, hceil, if_neg hmod]
    rfl

/-- C2 witness: two documents at interval 1, both normalizing successfully —
`ceil(2/1) = 2` appends, every position being a checkpoint boundary. -/
theorem C2_witness :
    (process_documents fetchNone extractEmpty 1 [docGood, docGood]).appends.length =
      (([docGood, docGood] : List Doc).length + 1 - 1) / 1 :=
  C2_checkpoint_flush_count fetchNone extractEmpty 1 [docGood, docGood]
    (by decide) (by decide) (by decide)

/-- C3: evaluation of the code at the failing input.  A non-empty loaded
list whose every document fails URL normalization leaves
`stats["processed"]` at 0 (the `continue` skips the increment), so `run`'s
success-rate computation `successful/processed` raises `ZeroDivisionError` —
the run aborts, contradicting the claim that per-document failures are never
fatal. -/
theorem C3_run_crashes_when_all_normalizations_fail :
    ([docBad] : List Doc) ≠ [] ∧
    run fetchNone extractEmpty 50 [docBad] = RunResult.zeroDivisionError :=
  ⟨by decide, by decide⟩

/-- C4: evaluation of the code at the failing input.  Both example URLs
normalize to `https://arxiv.org/abs/2301.12345v` — the greedy `[a-z]*` in
the id pattern consumes the `v`, so the `(?:v\d+)?` group can never match
and the version digits are dropped, contradicting the claimed canonical
result `https://arxiv.org/abs/2301.12345v2` (and with it the claimed
idempotence on `...v2`-canonical URLs). -/
theorem C4_normalize_truncates_version :
    normalize_arxiv_url "https://arxiv.org/pdf/2301.12345v2.pdf".toList =
      some "https://arxiv.org/abs/2301.12345v".toList ∧
    normalize_arxiv_url "arxiv.org/abs/2301.12345v2".toList =
      some "https://arxiv.org/abs/2301.12345v".toList ∧
    normalize_arxiv_url "https://arxiv.org/abs/2301.12345v".toList =
      some "https://arxiv.org/abs/2301.12345v".toList ∧
    "https://arxiv.org/abs/2301.12345v".toList ≠
      "https://arxiv.org/abs/2301.12345v2".toList :=
  ⟨by decide, by decide, by decide, by decide⟩

/-- C5 counterexample: a run over one document whose URL fails normalization
performs zero `time.sleep` calls, not one per loaded document — the
`continue` skips the post-iteration delay. -/
theorem C5_counterexample :
    (process_documents fetchNone extractEmpty 50 [docBad]).delays = 0 ∧
    ([docBad] : List Doc).length = 1 :=
  ⟨by decide, by decide⟩

/-- C5 (amended): the fixed delay is observed exactly once per document
whose URL normalization succeeds, regardless of fetch outcome; documents
that fail normalization are skipped by the `continue` before the sleep, so
the number of delays equals the number of successfully-normalized
documents. -/
theorem C5_delay_per_normalized_document (fetch : List Char → Option (List Char))
    (extract : List Char → Metadata) (K : Nat) (docs : List Doc) (hK : 0 < K) :
    (process_documents fetch extract K docs).delays =
      (docs.filter (fun d => (normalize_arxiv_url d.raw_url).isSome)).length := by
  unfold process_documents
  by_cases hd : docs = []
  · subst hd
    simp [pInit]
  · rw [if_neg hd]
    have h := runDocs_delays fetch extract K docs 1 pInit
    by_cases hb : (runDocs fetch extract K 1 docs pInit).buffer = []
    · rw [if_pos hb]
      simpa [pInit] using h
    · rw [if_neg hb]
      simpa [pInit] using h

/-- C5 witness: two documents, one normalization failure — exactly one
delay. -/
theorem C5_witness :
    (process_documents fetchNone extractEmpty 50 [docBad, docGood]).delays =
      ([docBad, docGood].filter
        (fun d => (normalize_arxiv_url d.raw_url).isSome)).length :=
  C5_delay_per_normalized_document fetchNone extractEmpty 50 [docBad, docGood] (by decide)

/-- C7: when the submission-history block yields version markers, extraction
returns `v` followed by a marker of maximal numeric value (Python `max` with
`key=int`, independent of order in the block); concretely
`[v1] ... [v2] ... [v3]` yields `v3` and `[v10]` beats `[v9]` numerically in
either order; with no history markers it falls back to the `v<digits>`
search in the `og:url` meta content, else the empty string. -/
theorem C7_version_extraction :
    (∀ (h : List Char) (m : Option (List Char)) (x : List Char) (t : List (List Char)),
      findVMarkers h = x :: t →
      extract_version (some h) m = 'v' :: maxFrom x t ∧
      maxFrom x t ∈ findVMarkers h ∧
      ∀ ds ∈ findVMarkers h, digitsToNat ds ≤ digitsToNat (maxFrom x t)) ∧
    extract_version (some "[v1] ... [v2] ... [v3] ...".toList) none = "v3".toList ∧
    extract_version (some "[v9] [v10]".toList) none = "v10".toList ∧
    extract_version (some "[v10] [v9]".toList) none = "v10".toList ∧
    (∀ m : List Char, extract_version none (some m) =
      (match searchVNum m with
       | some ds => 'v' :: ds
       | none => [])) ∧
    extract_version none none = [] := by
  refine ⟨?_, by decide, by decide, by decide, ?_, rfl⟩
  · intro h m x t hvs
    refine ⟨?_, ?_, ?_⟩
    · rw [extract_version_some_eq, hvs]
      rfl
    · rw [hvs]
      exact maxFrom_mem t x
    · intro ds hds
      rw [hvs] at hds
      exact maxFrom_ge t x ds hds
  · intro m
    show (if m = [] then []
          else match searchVNum m with
            | some ds => 'v' :: ds
            | none => []) = _
    by_cases hm : m = []
    · subst hm
      rfl
    · rw [if_neg hm]

/-- C7 witness: the general maximum property applied to the concrete
three-marker history. -/
theorem C7_witness :
    extract_version (some "[v1] ... [v2] ... [v3] ...".toList) none =
      'v' :: maxFrom "1".toList ["2".toList, "3".toList] :=
  (C7_version_extraction.1 "[v1] ... [v2] ... [v3] ...".toList none
    "1".toList ["2".toList, "3".toList] (by decide)).1

/-- C8 counterexample: the present-but-empty license URL `""` is falsy in
Python, so `map_license` returns `"Unknown"` — not `"Other/Unmapped"` as the
claimed "Unknown exactly when absent / Other-Unmapped otherwise on no match"
dichotomy requires. -/
theorem C8_counterexample :
    map_license (some []) = "Unknown".toList ∧
    "Unknown".toList ≠ "Other/Unmapped".toList :=
  ⟨by decide, by decide⟩

/-- C8 (amended): `map_license` returns `"Unknown"` exactly when the license
URL is absent or empty; otherwise, after lower-casing and stripping, the
display name of the first table entry (declaration order) whose substring
occurs is returned — in particular every URL containing
`creativecommons.org/licenses/by/4.0` yields `"CC BY 4.0"` — and
`"Other/Unmapped"` when no entry matches. -/
theorem C8_license_classification :
    map_license none = "Unknown".toList ∧
    map_license (some []) = "Unknown".toList ∧
    (∀ u : List Char, u ≠ [] → map_license (some u) ≠ "Unknown".toList) ∧
    (∀ u : List Char,
      isSubstring "creativecommons.org/licenses/by/4.0".toList u = true →
      map_license (some u) = "CC BY 4.0".toList) ∧
    (∀ u : List Char, u ≠ [] →
      firstLicense LICENSE_MAPPINGS (pyStrip (u.map Char.toLower)) = none →
      map_license (some u) = "Other/Unmapped".toList) ∧
    (∀ (u n : List Char), u ≠ [] →
      firstLicense LICENSE_MAPPINGS (pyStrip (u.map Char.toLower)) = some n →
      map_license (some u) = n) := by
  refine ⟨rfl, by decide, ?_, ?_, ?_, ?_⟩
  · intro u hu
    rw [map_license_some, if_neg hu]
    cases hf : firstLicense LICENSE_MAPPINGS (pyStrip (u.map Char.toLower)) with
    | some n =>
      obtain ⟨p, hp⟩ := firstLicense_mem (pyStrip (u.map Char.toLower)) LICENSE_MAPPINGS n hf
      show n ≠ "Unknown".toList
      simp only [LICENSE_MAPPINGS, List.mem_cons, List.not_mem_nil, or_false,
        Prod.mk.injEq] at hp
      rcases hp with ⟨_, hn⟩ | ⟨_, hn⟩ | ⟨_, hn⟩ | ⟨_, hn⟩ | ⟨_, hn⟩ | ⟨_, hn⟩ <;>
        rw [hn] <;> decide
    | none =>
      show "Other/Unmapped".toList ≠ "Unknown".toList
      decide
  · intro u hsub
    have hu : u ≠ [] := by
      intro hnil
      subst hnil
      exact absurd hsub (by decide)
    rw [map_license_some, if_neg hu]
    have hl : isSubstring "creativecommons.org/licenses/by/4.0".toList
        (u.map Char.toLower) = true :=
      isSubstring_map_toLower _ u (by decide) hsub
    have hs : isSubstring "creativecommons.org/licenses/by/4.0".toList
        (pyStrip (u.map Char.toLower)) = true :=
      isSubstring_pyStrip _ (by decide) (by decide) _ hl
    have hfl : firstLicense LICENSE_MAPPINGS (pyStrip (u.map Char.toLower)) =
        some "CC BY 4.0".toList := by
      simp only [LICENSE_MAPPINGS, firstLicense, hs, if_true]
    rw [hfl]
  · intro u hu hnone
    rw [map_license_some, if_neg hu, hnone]
  · intro u n hu hsome
    rw [map_license_some, if_neg hu, hsome]

/-- C8 witness: a concrete CC-BY-4.0 URL classifies to `"CC BY 4.0"`. -/
theorem C8_witness :
    map_license (some "https://creativecommons.org/licenses/by/4.0/".toList) =
      "CC BY 4.0".toList :=
  C8_license_classification.2.2.2.1
    "https://creativecommons.org/licenses/by/4.0/".toList (by decide)

/-- C9: the identifier resolver yields 60987 on `"PN0060987"`; whenever the
`PN0` fast path parses, its value wins (first success); and an input with no
digit characters resolves to `none` (absence, never an exception — the model
is total). -/
theorem C9_identifier_resolution :
    extract_numeric_id "PN0060987".toList = some 60987 ∧
    (∀ s : List Char, (∀ c ∈ s, c.isDigit = false) → extract_numeric_id s = none) ∧
    (∀ (s : List Char) (n : Int), startsList pn0 s = true → 3 < s.length →
      pyIntStr (s.drop 3) = some n → extract_numeric_id s = some n) := by
  refine ⟨by decide, ?_, ?_⟩
  · intro s h
    exact extract_numeric_id_no_digit s h
  · intro s n h1 h2 h3
    unfold extract_numeric_id
    rw [if_pos ⟨h1, h2⟩, h3]

/-- C9 witness: the prefixed-identifier branch at a concrete input. -/
theorem C9_witness : extract_numeric_id "PN0061000".toList = some 61000 :=
  C9_identifier_resolution.2.2 "PN0061000".toList 61000 (by decide) (by decide) (by decide)

/-- C10: the empty row emitted for a document whose URL fails normalization
carries the raw, un-normalized reference URL in `abs_url` (with
`license_url` absent and `license_name` `"Unknown"`); when normalization
succeeds but the fetch fails, the empty row carries the normalized canonical
URL instead; and each iteration appends exactly its emitted row to the rows
held by the driver. -/
theorem C10_empty_row_urls (fetch : List Char → Option (List Char))
    (extract : List Char → Metadata) (d : Doc) :
    (normalize_arxiv_url d.raw_url = none →
      emittedRow fetch extract d = create_empty_result d.doc_id d.raw_url ∧
      (emittedRow fetch extract d).abs_url = d.raw_url ∧
      (emittedRow fetch extract d).license_url = none ∧
      (emittedRow fetch extract d).license_name = "Unknown".toList) ∧
    (∀ u : List Char, normalize_arxiv_url d.raw_url = some u → fetch u = none →
      emittedRow fetch extract d = create_empty_result d.doc_id u ∧
      (emittedRow fetch extract d).abs_url = u) ∧
    (∀ (K i : Nat) (st : PState),
      allRows (stepDoc fetch extract K i d st) = allRows st ++ [emittedRow fetch extract d]) := by
  refine ⟨?_, ?_, ?_⟩
  · intro h
    unfold emittedRow
    rw [h]
    exact ⟨rfl, rfl, rfl, rfl⟩
  · intro u hu hf
    rw [emittedRow_some fetch extract d u hu, hf]
    exact ⟨rfl, rfl⟩
  · intro K i st
    exact stepDoc_allRows fetch extract K i d st

/-- C10 witness: the concrete failed-normalization document's row carries
its raw URL. -/
theorem C10_witness :
    emittedRow fetchNone extractEmpty docBad =
      create_empty_result docBad.doc_id docBad.raw_url :=
  ((C10_empty_row_urls fetchNone extractEmpty docBad).1 (by decide)).1

end ArXiv
